import Mathlib

/-!
Verification of the Banker's Algorithm implementation in `project3.cpp`.

The C++ class `BankersAlgorithm` is shallowly embedded as the structure
`Banker.BankersAlgorithm`: the four state components are lists of machine
integers (modelled as `Int`; all arithmetic in the program stays far from
the `int` overflow range for the inputs considered), and each member
function becomes a pure Lean function on the structure.  Process ids are
`Int` because the C++ code takes `int pid` and tests `pid < 0`.

Inside the class every row has length `numResources` and every matrix has
`numProcesses` rows (established by the constructor and preserved by the
guarded setters); the in-place row loops `for (j = 0; j < numResources; ++j)`
are therefore rendered as maps over `List.range numResources`, which agree
with the C++ loops entry by entry on rows of that length.
-/

namespace Banker

/-- Pointwise comparison of the first `R` components (defaulting to 0 past
the end of a list, which never happens for in-class rows). -/
def vecLe (R : Nat) (xs ys : List Int) : Bool :=
  (List.range R).all fun j => decide (xs.getD j 0 ≤ ys.getD j 0)

/-- Pointwise sum of the first `R` components, as done by the loop
`for (j) work[j] += allocation[i][j]`. -/
def vecAdd (R : Nat) (xs ys : List Int) : List Int :=
  (List.range R).map fun j => xs.getD j 0 + ys.getD j 0

/-- State of the C++ class `BankersAlgorithm`. -/
structure BankersAlgorithm where
  numProcesses : Nat
  numResources : Nat
  allocation : List (List Int)
  max : List (List Int)
  need : List (List Int)
  available : List Int
deriving DecidableEq, Repr

/-- Constructor `BankersAlgorithm(processes, resources)`: all matrices and
vectors are zero-filled. -/
def mkBankers (processes resources : Nat) : BankersAlgorithm :=
  { numProcesses := processes
    numResources := resources
    allocation := List.replicate processes (List.replicate resources 0)
    max := List.replicate processes (List.replicate resources 0)
    need := List.replicate processes (List.replicate resources 0)
    available := List.replicate resources 0 }

/-- Member `setAvailable`. -/
def setAvailable (s : BankersAlgorithm) (av : List Int) : BankersAlgorithm :=
  if av.length ≠ s.numResources then s else { s with available := av }

/-- Member `setMaxRow`. -/
def setMaxRow (s : BankersAlgorithm) (pid : Int) (row : List Int) : BankersAlgorithm :=
  if pid < 0 ∨ (s.numProcesses : Int) ≤ pid then s
  else if row.length ≠ s.numResources then s
  else { s with max := s.max.set pid.toNat row }

/-- Member `setAllocationRow`. -/
def setAllocationRow (s : BankersAlgorithm) (pid : Int) (row : List Int) : BankersAlgorithm :=
  if pid < 0 ∨ (s.numProcesses : Int) ≤ pid then s
  else if row.length ≠ s.numResources then s
  else { s with allocation := s.allocation.set pid.toNat row }

/-- Member `computeNeed`: `need[i][j] = max[i][j] - allocation[i][j]`,
clamped to 0 when negative. -/
def computeNeed (s : BankersAlgorithm) : BankersAlgorithm :=
  { s with need := (List.range s.numProcesses).map fun i =>
      (List.range s.numResources).map fun j =>
        Max.max ((s.max.getD i []).getD j 0 - (s.allocation.getD i []).getD j 0) 0 }

/-- The inner test of `isSafe`: `need[i][j] ≤ work[j]` for all `j < R`. -/
def canFinish (s : BankersAlgorithm) (work : List Int) (i : Nat) : Bool :=
  vecLe s.numResources (s.need.getD i []) work

/-- The release step of `isSafe`: `work[j] += allocation[i][j]`. -/
def releaseWork (s : BankersAlgorithm) (work : List Int) (i : Nat) : List Int :=
  vecAdd s.numResources work (s.allocation.getD i [])

/-- Body of the scan over one process inside a pass of `isSafe`. -/
def finishStep (s : BankersAlgorithm) (acc : List Int × List Bool × Bool) (i : Nat) :
    List Int × List Bool × Bool :=
  if acc.2.1.getD i false then acc
  else if canFinish s acc.1 i then (releaseWork s acc.1 i, acc.2.1.set i true, true)
  else acc

/-- One full pass of the `while` loop of `isSafe` over the scan order. -/
def finishPass (s : BankersAlgorithm) (acc : List Int × List Bool × Bool)
    (order : List Nat) : List Int × List Bool × Bool :=
  order.foldl (finishStep s) acc

/-- The `while (true)` loop of `isSafe`: repeat passes until one makes no
progress.  The C++ loop is unbounded; `numProcesses + 1` passes always
suffice (theorem `isSafeFuel_eq_isSafe` below), so `isSafe` runs the loop
with that much fuel. -/
def safeLoop (s : BankersAlgorithm) (order : List Nat) :
    Nat → List Int × List Bool → List Int × List Bool
  | 0, wf => wf
  | fuel + 1, wf =>
    let r := finishPass s (wf.1, wf.2, false) order
    if r.2.2 then safeLoop s order fuel (r.1, r.2.1) else wf

/-- Member `isSafe`, generalised over the scan order used by each pass
(the C++ code scans in ascending index order, `List.range numProcesses`). -/
def isSafeOrder (s : BankersAlgorithm) (order : List Nat) : Bool :=
  let wf := safeLoop s order (s.numProcesses + 1)
    (s.available, List.replicate s.numProcesses false)
  (List.range s.numProcesses).all fun i => wf.2.getD i false

/-- Member `isSafe` with the loop capped at any fuel (pass count). -/
def isSafeFuel (s : BankersAlgorithm) (fuel : Nat) : Bool :=
  let wf := safeLoop s (List.range s.numProcesses) fuel
    (s.available, List.replicate s.numProcesses false)
  (List.range s.numProcesses).all fun i => wf.2.getD i false

/-- Member `isSafe`: scan order 0..P-1, fuel `P+1` (sufficient, see
`isSafeFuel_eq_isSafe`). -/
def isSafe (s : BankersAlgorithm) : Bool :=
  isSafeOrder s (List.range s.numProcesses)

/-- Member `canRequest`: false when pid out of range, otherwise
`req[j] ≤ need[pid][j]` and `req[j] ≤ available[j]` for every `j < R`. -/
def canRequest (s : BankersAlgorithm) (pid : Int) (req : List Int) : Bool :=
  if pid < 0 ∨ (s.numProcesses : Int) ≤ pid then false
  else (List.range s.numResources).all fun j =>
    decide (req.getD j 0 ≤ (s.need.getD pid.toNat []).getD j 0) &&
    decide (req.getD j 0 ≤ s.available.getD j 0)

/-- Member `applyRequest`: adds `req` to row `pid` of allocation, subtracts
it from available and from row `pid` of need (clamping need at 0). -/
def applyRequest (s : BankersAlgorithm) (pid : Int) (req : List Int) : BankersAlgorithm :=
  if pid < 0 ∨ (s.numProcesses : Int) ≤ pid then s
  else
    { s with
      allocation := s.allocation.set pid.toNat
        ((List.range s.numResources).map fun j =>
          (s.allocation.getD pid.toNat []).getD j 0 + req.getD j 0)
      available := (List.range s.numResources).map fun j =>
        s.available.getD j 0 - req.getD j 0
      need := s.need.set pid.toNat
        ((List.range s.numResources).map fun j =>
          Max.max ((s.need.getD pid.toNat []).getD j 0 - req.getD j 0) 0) }

/-- Entry `m[i][j]` of a matrix (0 outside the stored rows). -/
def entry (m : List (List Int)) (i j : Nat) : Int :=
  (m.getD i []).getD j 0

/-- Shape invariant maintained by the C++ class: every matrix has
`numProcesses` rows of length `numResources` and `available` has length
`numResources`. -/
def WF (s : BankersAlgorithm) : Prop :=
  s.allocation.length = s.numProcesses ∧
  s.max.length = s.numProcesses ∧
  s.need.length = s.numProcesses ∧
  s.available.length = s.numResources ∧
  (∀ r ∈ s.allocation, r.length = s.numResources) ∧
  (∀ r ∈ s.max, r.length = s.numResources) ∧
  (∀ r ∈ s.need, r.length = s.numResources)

instance (s : BankersAlgorithm) : Decidable (WF s) := by
  unfold WF; infer_instance

/-- All allocation entries are non-negative (the spec's data model: the
Allocation matrix holds non-negative integers). -/
def NonnegAlloc (s : BankersAlgorithm) : Prop :=
  ∀ r ∈ s.allocation, ∀ x ∈ r, 0 ≤ x

instance (s : BankersAlgorithm) : Decidable (NonnegAlloc s) := by
  unfold NonnegAlloc; infer_instance

/-- Sum of column `j` of the allocation matrix over all processes. -/
def allocSum (s : BankersAlgorithm) (j : Nat) : Int :=
  ∑ i ∈ Finset.range s.numProcesses, entry s.allocation i j

/-- A process sequence is executable from the work vector `w`: each process
in turn has its whole need row dominated by the accumulated work, and
releases its allocation row into the work. -/
def seqOk (s : BankersAlgorithm) (w : List Int) : List Nat → Bool
  | [] => true
  | i :: rest => canFinish s w i && seqOk s (releaseWork s w i) rest

/-- Work vector after running a sequence of releases from `w`. -/
def workAfter (s : BankersAlgorithm) (w : List Int) (σ : List Nat) : List Int :=
  σ.foldl (releaseWork s) w

/-- The spec's notion of a safe state: some ordering of all `P` processes
can finish in turn, starting from `available`. -/
def SafeSeqExists (s : BankersAlgorithm) : Prop :=
  ∃ σ : List Nat, σ.Perm (List.range s.numProcesses) ∧ seqOk s s.available σ = true

/-- The classic example state of the spec (scenario A): R=3, P=5,
Available `[3,3,2]`, the usual Max and Allocation rows, need computed. -/
def sA : BankersAlgorithm :=
  let s0 := mkBankers 5 3
  let s1 := setAvailable s0 [3, 3, 2]
  let s2 := setMaxRow s1 0 [7, 5, 3]
  let s3 := setMaxRow s2 1 [3, 2, 2]
  let s4 := setMaxRow s3 2 [9, 0, 2]
  let s5 := setMaxRow s4 3 [2, 2, 2]
  let s6 := setMaxRow s5 4 [4, 3, 3]
  let s7 := setAllocationRow s6 0 [0, 1, 0]
  let s8 := setAllocationRow s7 1 [2, 0, 0]
  let s9 := setAllocationRow s8 2 [3, 0, 2]
  let s10 := setAllocationRow s9 3 [2, 1, 1]
  let s11 := setAllocationRow s10 4 [0, 0, 2]
  computeNeed s11

/-- A state outside the spec's data model (a negative allocation entry),
showing why non-negativity matters for order-independence. -/
def sNeg : BankersAlgorithm :=
  { numProcesses := 2
    numResources := 1
    allocation := [[-5], [0]]
    max := [[0], [0]]
    need := [[0], [3]]
    available := [3] }

/-! Embedding of the input acquisition in `main`.  `std::cin` is modelled
as a list of whitespace-delimited tokens plus the sticky fail bit: once an
extraction fails every later extraction fails.  Integer extraction is
modelled at token granularity (a token is numeric when the whole token
parses as an integer); the inputs the claims quantify over contain no
token with a proper numeric prefix, the only case where `std::cin` would
consume part of a token.  Dimension values are clamped to `Nat` exactly as
the C++ `for (int j = 0; j < n; ++j)` loops treat them. -/

/-- Token stream state of `std::cin`. -/
structure Cin where
  toks : List String
  failed : Bool
deriving DecidableEq, Repr

/-- Extraction `cin >> token` for a string. -/
def readTok (c : Cin) : Option String × Cin :=
  if c.failed then (none, c)
  else
    match c.toks with
    | [] => (none, { c with failed := true })
    | t :: ts => (some t, { c with toks := ts })

/-- Digits of a numeral, most significant first, accumulated into a
natural number; any non-digit character makes the token non-numeric. -/
def natOfCharsAux : List Char → Nat → Option Nat
  | [], acc => some acc
  | ch :: cs, acc =>
    if ch.isDigit then natOfCharsAux cs (acc * 10 + (ch.toNat - 48)) else none

/-- Numeric value of a non-empty digit string. -/
def natOfChars : List Char → Option Nat
  | [] => none
  | cs => natOfCharsAux cs 0

/-- Integer value of a whole token: optional sign followed by digits, as
`operator>>(int&)` accepts (restricted to whole tokens; see above). -/
def tokenToInt (t : String) : Option Int :=
  match t.data with
  | '-' :: cs => (natOfChars cs).map fun n => -(n : Int)
  | '+' :: cs => (natOfChars cs).map fun n => (n : Int)
  | cs => (natOfChars cs).map fun n => (n : Int)

/-- Extraction `cin >> n` for an `int`: on failure the stream becomes
failed and the target holds 0 (every target in `main` is
zero-initialised, and C++11 extraction writes 0 on failure). -/
def readInt (c : Cin) : Int × Cin :=
  if c.failed then (0, c)
  else
    match c.toks with
    | [] => (0, { c with failed := true })
    | t :: ts =>
      match tokenToInt t with
      | some n => (n, { c with toks := ts })
      | none => (0, { c with failed := true })

/-- Read `n` integers in order (`for (j = 0; j < n; ++j) cin >> v[j]`). -/
def readInts (c : Cin) : Nat → List Int × Cin
  | 0 => ([], c)
  | n + 1 =>
    let v := readInt c
    let vs := readInts v.2 n
    (v.1 :: vs.1, vs.2)

/-- Read `n` rows of `R` integers, handing row `i` to the given setter
(the Max and Allocation row loops of `main`). -/
def readRowsWith (f : BankersAlgorithm → Int → List Int → BankersAlgorithm)
    (n R : Nat) (s : BankersAlgorithm) (c : Cin) : BankersAlgorithm × Cin :=
  (List.range n).foldl
    (fun acc i =>
      let row := readInts acc.2 R
      (f acc.1 (i : Int) row.1, row.2))
    (s, c)

/-- Outcome of `main` through input acquisition: `noInput` is the silent
`return 0` on an empty stream, `err` a diagnostic on `cerr` followed by
`return 1`, and `done` the fully parsed state (after `computeNeed`) with
the optional request line, after which `main` always returns 0. -/
inductive MainOut where
  | noInput : MainOut
  | err : String → MainOut
  | done : BankersAlgorithm → Option (String × List Int) → MainOut
deriving DecidableEq, Repr

/-- Process exit status for each outcome of `main`. -/
def exitCode : MainOut → Nat
  | MainOut.err _ => 1
  | _ => 0

/-- Whether a diagnostic message was written to the error stream. -/
def hasDiag : MainOut → Bool
  | MainOut.err _ => true
  | _ => false

/-- Stage of `main` from the `Allocation` keyword: allocation rows, then
the optional request line, then `computeNeed`. -/
def parseAllocationStage (nR nP : Int) (s : BankersAlgorithm) (c : Cin) : MainOut :=
  match readTok c with
  | (none, _) => MainOut.err ("Unexpected EOF reading Allocation")
  | (some tok, c1) =>
    if tok = "Allocation" then
      let rc := readRowsWith setAllocationRow nP.toNat nR.toNat s c1
      match readTok rc.2 with
      | (none, _) => MainOut.done (computeNeed rc.1) none
      | (some procName, c2) =>
        let rq := readInts c2 nR.toNat
        MainOut.done (computeNeed rc.1) (some (procName, rq.1))
    else MainOut.err ("Expected 'Allocation' but found '" ++ tok ++ "'")

/-- Stage of `main` from the `Max` keyword. -/
def parseMaxStage (nR nP : Int) (s : BankersAlgorithm) (c : Cin) : MainOut :=
  match readTok c with
  | (none, _) => MainOut.err ("Unexpected EOF reading Max")
  | (some tok, c1) =>
    if tok = "Max" then
      let rc := readRowsWith setMaxRow nP.toNat nR.toNat s c1
      parseAllocationStage nR nP rc.1 rc.2
    else MainOut.err ("Expected 'Max' but found '" ++ tok ++ "'")

/-- Stage of `main` from the `Available` keyword. -/
def parseAvailableStage (nR nP : Int) (s : BankersAlgorithm) (c : Cin) : MainOut :=
  match readTok c with
  | (none, _) => MainOut.err ("Unexpected EOF reading Available")
  | (some tok, c1) =>
    if tok = "Available" then
      let av := readInts c1 nR.toNat
      parseMaxStage nR nP (setAvailable s av.1) av.2
    else MainOut.err ("Expected 'Available' but found '" ++ tok ++ "'")

/-- Stage of `main` after the `P` keyword: read the process count and
construct the `BankersAlgorithm` instance. -/
def parseAfterP (nR : Int) (c : Cin) : MainOut :=
  let np := readInt c
  parseAvailableStage nR np.1 (mkBankers np.1.toNat nR.toNat) np.2

/-- Stage of `main` after the `R` keyword: read the resource count and
check the `P` keyword. -/
def parseAfterR (c : Cin) : MainOut :=
  let nr := readInt c
  match readTok nr.2 with
  | (none, _) => MainOut.err ("Expected 'P' after resources")
  | (some tok, c1) =>
    if tok = "P" then parseAfterP nr.1 c1
    else MainOut.err ("Expected 'P' token")

/-- The input acquisition of `main`, from a tokenised input stream. -/
def runMain (input : List String) : MainOut :=
  match readTok { toks := input, failed := false } with
  | (none, _) => MainOut.noInput
  | (some tok, c1) =>
    if tok = "R" ∨ tok = "r" then parseAfterR c1
    else MainOut.err ("Expected 'R' at start")

/-- A well-formed R=2, P=2 input (17 tokens); its truncations to `k`
tokens exercise every end-of-stream point of the parser. -/
def c7toks : List String :=
  ["R", "2", "P", "2", "Available", "1", "1",
   "Max", "1", "0", "0", "1",
   "Allocation", "0", "0", "0", "0"]

/-! Basic list access lemmas used throughout. -/

theorem getD_map_range {α : Type} (f : Nat → α) {j n : Nat} (h : j < n) (d : α) :
    ((List.range n).map f).getD j d = f j := by
  rw [List.getD_eq_getElem?_getD, List.getElem?_map, List.getElem?_range h]
  rfl

theorem getD_set_self {α : Type} (l : List α) {i : Nat} (a d : α) (h : i < l.length) :
    (l.set i a).getD i d = a := by
  rw [List.getD_eq_getElem?_getD, List.getElem?_set_self h]
  rfl

theorem getD_set_ne {α : Type} (l : List α) {i j : Nat} (a d : α) (h : i ≠ j) :
    (l.set i a).getD j d = l.getD j d := by
  rw [List.getD_eq_getElem?_getD, List.getElem?_set_ne h, ← List.getD_eq_getElem?_getD]

theorem getD_replicate {α : Type} {n i : Nat} (a : α) :
    (List.replicate n a).getD i a = a := by
  rw [List.getD_eq_getElem?_getD, List.getElem?_replicate]
  split <;> rfl

/-- Characterisation of `canRequest` as the spec states it. -/
theorem canRequest_eq_true_iff (s : BankersAlgorithm) (pid : Int) (req : List Int) :
    canRequest s pid req = true ↔
      0 ≤ pid ∧ pid < (s.numProcesses : Int) ∧
      ∀ j < s.numResources,
        req.getD j 0 ≤ entry s.need pid.toNat j ∧ req.getD j 0 ≤ s.available.getD j 0 := by
  unfold canRequest
  rcases Decidable.em (pid < 0 ∨ (s.numProcesses : Int) ≤ pid) with h | h
  · rw [if_pos h]
    constructor
    · intro hf
      exact absurd hf Bool.false_ne_true
    · rintro ⟨h0, hp, -⟩
      omega
  · rw [if_neg h]
    push_neg at h
    simp only [List.all_eq_true, List.mem_range, Bool.and_eq_true, decide_eq_true_eq, entry]
    constructor
    · intro hall
      exact ⟨by omega, by omega, fun j hj => hall j hj⟩
    · intro hc j hj
      exact hc.2.2 j hj

/-- C2: `canRequest(pid, req)` for a request vector of length `R` returns
true iff `pid` is in `[0, P)` and for every resource `j`,
`req[j] ≤ need[pid][j]` and `req[j] ≤ available[j]`; in particular it is
false whenever `pid` is out of range.  (The embedding renders the
`const` member as a pure function, so absence of mutation is intrinsic.) -/
theorem canRequest_spec (s : BankersAlgorithm) (pid : Int) (req : List Int)
    (hreq : req.length = s.numResources) :
    canRequest s pid req = true ↔
      0 ≤ pid ∧ pid < (s.numProcesses : Int) ∧
      ∀ j < s.numResources,
        req.getD j 0 ≤ entry s.need pid.toNat j ∧ req.getD j 0 ≤ s.available.getD j 0 :=
  canRequest_eq_true_iff s pid req

/-- Witness for C2 on the spec's scenario-B request. -/
theorem canRequest_spec_witness : canRequest sA 1 [1, 0, 2] = true :=
  (canRequest_spec sA 1 [1, 0, 2] (by decide)).mpr
    ⟨by decide, by decide, by decide⟩

/-- C5: after `computeNeed()` every entry satisfies
`need[i][j] = max(0, max[i][j] - allocation[i][j])`, hence is
non-negative, and the max, allocation and available components are
unchanged. -/
theorem computeNeed_spec (s : BankersAlgorithm) :
    (∀ i < s.numProcesses, ∀ j < s.numResources,
      entry (computeNeed s).need i j
          = Max.max 0 (entry s.max i j - entry s.allocation i j) ∧
      0 ≤ entry (computeNeed s).need i j) ∧
    (computeNeed s).max = s.max ∧
    (computeNeed s).allocation = s.allocation ∧
    (computeNeed s).available = s.available := by
  refine ⟨?_, rfl, rfl, rfl⟩
  intro i hi j hj
  have h1 : entry (computeNeed s).need i j
      = Max.max (entry s.max i j - entry s.allocation i j) 0 := by
    unfold computeNeed entry
    rw [getD_map_range _ hi, getD_map_range _ hj]
  constructor
  · rw [h1, max_comm]
  · rw [h1]
    exact le_max_right _ _

/-- Witness for C5 at entry (0,0) of the scenario-A state. -/
theorem computeNeed_spec_witness :
    entry (computeNeed sA).need 0 0
      = Max.max 0 (entry sA.max 0 0 - entry sA.allocation 0 0) :=
  ((computeNeed_spec sA).1 0 (by decide) 0 (by decide)).1

/-- C9: every setter called with invalid arguments is a no-op on the whole
state: `setMaxRow`/`setAllocationRow` with `pid` outside `[0, P)` or a row
of the wrong length, `setAvailable` with a vector of the wrong length, and
`applyRequest` with `pid` outside `[0, P)`. -/
theorem setters_invalid_noop (s : BankersAlgorithm) (pid : Int) (row av req : List Int) :
    ((pid < 0 ∨ (s.numProcesses : Int) ≤ pid ∨ row.length ≠ s.numResources) →
      setMaxRow s pid row = s ∧ setAllocationRow s pid row = s) ∧
    (av.length ≠ s.numResources → setAvailable s av = s) ∧
    ((pid < 0 ∨ (s.numProcesses : Int) ≤ pid) → applyRequest s pid req = s) := by
  refine ⟨?_, ?_, ?_⟩
  · intro h
    constructor
    · unfold setMaxRow
      split
      · rfl
      · next hg =>
        have hlen : row.length ≠ s.numResources := by tauto
        rw [if_pos hlen]
    · unfold setAllocationRow
      split
      · rfl
      · next hg =>
        have hlen : row.length ≠ s.numResources := by tauto
        rw [if_pos hlen]
  · intro h
    unfold setAvailable
    rw [if_pos h]
  · intro h
    unfold applyRequest
    rw [if_pos h]

/-- Witness for C9: out-of-range pid and wrong-length vectors on the
scenario-A state. -/
theorem setters_invalid_noop_witness :
    setMaxRow sA (-1) [] = sA ∧ setAvailable sA [] = sA ∧ applyRequest sA 5 [] = sA :=
  ⟨((setters_invalid_noop sA (-1) ([] : List Int) [] []).1 (Or.inl (by decide))).1,
   (setters_invalid_noop sA (-1) [] ([] : List Int) []).2.1 (by decide),
   (setters_invalid_noop sA 5 [] [] ([] : List Int)).2.2 (Or.inr (by decide))⟩

/-- C10: for a state with `numProcesses = 0`, `isSafe()` returns true and
`canRequest` returns false for every pid and request. -/
theorem zeroProcesses_spec (s : BankersAlgorithm) (h : s.numProcesses = 0) :
    isSafe s = true ∧ ∀ pid req, canRequest s pid req = false := by
  constructor
  · simp [isSafe, isSafeOrder, h]
  · intro pid req
    have hg : pid < 0 ∨ (s.numProcesses : Int) ≤ pid := by
      rw [h]
      push_cast
      omega
    simp [canRequest, hg]

/-- Witness for C10 on the zero-process constructor state. -/
theorem zeroProcesses_spec_witness :
    isSafe (mkBankers 0 3) = true ∧ canRequest (mkBankers 0 3) (-7) [1, 2] = false :=
  ⟨(zeroProcesses_spec (mkBankers 0 3) rfl).1,
   (zeroProcesses_spec (mkBankers 0 3) rfl).2 (-7) [1, 2]⟩

/-- C3: applying a valid request on an in-range pid adds `req` to the pid
row of allocation, subtracts it from available and from the pid row of
need, conserves the per-resource total `sum of allocation + available`,
and leaves every other allocation and need row and the whole max matrix
unchanged. -/
theorem applyRequest_spec (s : BankersAlgorithm) (pid : Int) (req : List Int)
    (hWF : WF s) (h0 : 0 ≤ pid) (hp : pid < (s.numProcesses : Int))
    (hcr : canRequest s pid req = true) :
    (∀ j < s.numResources,
      entry (applyRequest s pid req).allocation pid.toNat j
          = entry s.allocation pid.toNat j + req.getD j 0 ∧
      (applyRequest s pid req).available.getD j 0
          = s.available.getD j 0 - req.getD j 0 ∧
      entry (applyRequest s pid req).need pid.toNat j
          = entry s.need pid.toNat j - req.getD j 0 ∧
      allocSum (applyRequest s pid req) j + (applyRequest s pid req).available.getD j 0
          = allocSum s j + s.available.getD j 0) ∧
    (∀ i < s.numProcesses, i ≠ pid.toNat →
      (applyRequest s pid req).allocation.getD i [] = s.allocation.getD i [] ∧
      (applyRequest s pid req).need.getD i [] = s.need.getD i []) ∧
    (applyRequest s pid req).max = s.max := by
  have hg : ¬(pid < 0 ∨ (s.numProcesses : Int) ≤ pid) := by omega
  have hpP : pid.toNat < s.numProcesses := by omega
  have hAl : (applyRequest s pid req).allocation
      = s.allocation.set pid.toNat
        ((List.range s.numResources).map fun j =>
          (s.allocation.getD pid.toNat []).getD j 0 + req.getD j 0) := by
    unfold applyRequest
    rw [if_neg hg]
  have hAv : (applyRequest s pid req).available
      = (List.range s.numResources).map fun j =>
          s.available.getD j 0 - req.getD j 0 := by
    unfold applyRequest
    rw [if_neg hg]
  have hNe : (applyRequest s pid req).need
      = s.need.set pid.toNat
        ((List.range s.numResources).map fun j =>
          Max.max ((s.need.getD pid.toNat []).getD j 0 - req.getD j 0) 0) := by
    unfold applyRequest
    rw [if_neg hg]
  have hMx : (applyRequest s pid req).max = s.max := by
    unfold applyRequest
    rw [if_neg hg]
  have hPn : (applyRequest s pid req).numProcesses = s.numProcesses := by
    unfold applyRequest
    rw [if_neg hg]
  have hreqs := (canRequest_eq_true_iff s pid req).mp hcr
  have hallocLen : pid.toNat < s.allocation.length := by
    rw [hWF.1]
    exact hpP
  have hneedLen : pid.toNat < s.need.length := by
    rw [hWF.2.2.1]
    exact hpP
  have hAlRow : ∀ j < s.numResources,
      entry (applyRequest s pid req).allocation pid.toNat j
        = entry s.allocation pid.toNat j + req.getD j 0 := by
    intro j hj
    unfold entry
    rw [hAl, getD_set_self _ _ _ hallocLen, getD_map_range _ hj]
  have hAvj : ∀ j < s.numResources,
      (applyRequest s pid req).available.getD j 0
        = s.available.getD j 0 - req.getD j 0 := by
    intro j hj
    rw [hAv, getD_map_range _ hj]
  refine ⟨?_, ?_, hMx⟩
  · intro j hj
    refine ⟨hAlRow j hj, hAvj j hj, ?_, ?_⟩
    · unfold entry
      rw [hNe, getD_set_self _ _ _ hneedLen, getD_map_range _ hj]
      have hle : req.getD j 0 ≤ entry s.need pid.toNat j := (hreqs.2.2 j hj).1
      unfold entry at hle
      rw [max_eq_left (sub_nonneg.mpr hle)]
    · have hsum : allocSum (applyRequest s pid req) j = allocSum s j + req.getD j 0 := by
        unfold allocSum
        rw [hPn]
        have hmem : pid.toNat ∈ Finset.range s.numProcesses := Finset.mem_range.mpr hpP
        rw [← Finset.add_sum_erase _ _ hmem,
            ← Finset.add_sum_erase _ (fun i => entry s.allocation i j) hmem]
        have herase : ∀ i ∈ (Finset.range s.numProcesses).erase pid.toNat,
            entry (applyRequest s pid req).allocation i j = entry s.allocation i j := by
          intro i hi
          have hne : pid.toNat ≠ i := fun h => (Finset.mem_erase.mp hi).1 h.symm
          unfold entry
          rw [hAl, getD_set_ne _ _ _ hne]
        rw [Finset.sum_congr rfl herase, hAlRow j hj]
        ring
      rw [hsum, hAvj j hj]
      ring
  · intro i hi hne
    have hne' : pid.toNat ≠ i := fun h => hne h.symm
    constructor
    · rw [hAl, getD_set_ne _ _ _ hne']
    · rw [hNe, getD_set_ne _ _ _ hne']

/-- Witness for C3 on the spec's scenario-B request `P1 1 0 2`. -/
theorem applyRequest_spec_witness :
    entry (applyRequest sA 1 [1, 0, 2]).allocation 1 0
      = entry sA.allocation 1 0 + ([1, 0, 2] : List Int).getD 0 0 :=
  ((applyRequest_spec sA 1 [1, 0, 2] (by decide) (by decide) (by decide)
    (by decide)).1 0 (by decide)).1

/-! Lemmas about one pass of the safety loop. -/

theorem finishPass_nil (s : BankersAlgorithm) (acc : List Int × List Bool × Bool) :
    finishPass s acc [] = acc := rfl

theorem finishPass_cons (s : BankersAlgorithm) (acc : List Int × List Bool × Bool)
    (i : Nat) (l : List Nat) :
    finishPass s acc (i :: l) = finishPass s (finishStep s acc i) l := rfl

/-- The three possible outcomes of scanning one process. -/
theorem finishStep_cases (s : BankersAlgorithm) (acc : List Int × List Bool × Bool) (i : Nat) :
    (acc.2.1.getD i false = true ∧ finishStep s acc i = acc) ∨
    (acc.2.1.getD i false = false ∧ canFinish s acc.1 i = false ∧ finishStep s acc i = acc) ∨
    (acc.2.1.getD i false = false ∧ canFinish s acc.1 i = true ∧
      finishStep s acc i = (releaseWork s acc.1 i, acc.2.1.set i true, true)) := by
  unfold finishStep
  split
  · next h =>
    exact Or.inl ⟨h, rfl⟩
  · next h =>
    rw [Bool.not_eq_true] at h
    split
    · next hc =>
      exact Or.inr (Or.inr ⟨h, hc, rfl⟩)
    · next hc =>
      rw [Bool.not_eq_true] at hc
      exact Or.inr (Or.inl ⟨h, hc, rfl⟩)

theorem finishStep_length (s : BankersAlgorithm) (acc : List Int × List Bool × Bool) (i : Nat) :
    (finishStep s acc i).2.1.length = acc.2.1.length := by
  rcases finishStep_cases s acc i with ⟨-, he⟩ | ⟨-, -, he⟩ | ⟨-, -, he⟩ <;> rw [he]
  simp

theorem finishPass_length (s : BankersAlgorithm) (l : List Nat) :
    ∀ acc, (finishPass s acc l).2.1.length = acc.2.1.length := by
  induction l with
  | nil => intro acc; rfl
  | cons i l ih =>
    intro acc
    rw [finishPass_cons, ih, finishStep_length]

theorem count_false_set (l : List Bool) :
    ∀ i, i < l.length → l.getD i false = false →
      (l.set i true).count false + 1 = l.count false := by
  induction l with
  | nil => intro i h; simp at h
  | cons b bs ih =>
    intro i hi hb
    cases i with
    | zero =>
      rw [List.getD_cons_zero] at hb
      subst hb
      simp [List.count_cons]
    | succ n =>
      rw [List.getD_cons_succ] at hb
      have hn : n < bs.length := by simpa using hi
      have := ih n hn hb
      simp only [List.set_cons_succ, List.count_cons]
      omega

theorem count_false_set_le (l : List Bool) :
    ∀ i, (l.set i true).count false ≤ l.count false := by
  induction l with
  | nil => intro i; simp
  | cons b bs ih =>
    intro i
    cases i with
    | zero => simp [List.count_cons]
    | succ n =>
      simp only [List.set_cons_succ, List.count_cons]
      have := ih n
      omega

theorem finishPass_count_le (s : BankersAlgorithm) (l : List Nat) :
    ∀ acc, (finishPass s acc l).2.1.count false ≤ acc.2.1.count false := by
  induction l with
  | nil => intro acc; exact le_refl _
  | cons i l ih =>
    intro acc
    rw [finishPass_cons]
    rcases finishStep_cases s acc i with ⟨-, he⟩ | ⟨-, -, he⟩ | ⟨-, -, he⟩ <;> rw [he]
    · exact ih acc
    · exact ih acc
    · calc (finishPass s (releaseWork s acc.1 i, acc.2.1.set i true, true) l).2.1.count false
          ≤ (acc.2.1.set i true).count false := ih _
        _ ≤ acc.2.1.count false := count_false_set_le _ _

/-- A pass that reports progress strictly decreases the number of
unfinished processes. -/
theorem finishPass_progress_count (s : BankersAlgorithm) (l : List Nat) :
    ∀ acc, (∀ i ∈ l, i < acc.2.1.length) → acc.2.2 = false →
      (finishPass s acc l).2.2 = true →
      (finishPass s acc l).2.1.count false < acc.2.1.count false := by
  induction l with
  | nil =>
    intro acc _ hf ht
    rw [finishPass_nil] at ht
    rw [hf] at ht
    cases ht
  | cons i l ih =>
    intro acc hlen hf ht
    rw [finishPass_cons] at ht ⊢
    rcases finishStep_cases s acc i with ⟨-, he⟩ | ⟨-, -, he⟩ | ⟨hgd, -, he⟩
    · rw [he] at ht ⊢
      exact ih acc (fun x hx => hlen x (List.mem_cons_of_mem _ hx)) hf ht
    · rw [he] at ht ⊢
      exact ih acc (fun x hx => hlen x (List.mem_cons_of_mem _ hx)) hf ht
    · rw [he]
      have hi : i < acc.2.1.length := hlen i (List.mem_cons_self _ _)
      have hcount := count_false_set acc.2.1 i hi hgd
      have hle := finishPass_count_le s l (releaseWork s acc.1 i, acc.2.1.set i true, true)
      simp only [] at hle
      omega

/-- A pass that reports no progress changed nothing, and every process in
the scan order is either finished or unable to finish. -/
theorem finishPass_noprogress (s : BankersAlgorithm) (l : List Nat) :
    ∀ acc, (finishPass s acc l).2.2 = false →
      finishPass s acc l = acc ∧ acc.2.2 = false ∧
      ∀ i ∈ l, acc.2.1.getD i false = true ∨ canFinish s acc.1 i = false := by
  induction l with
  | nil =>
    intro acc h
    rw [finishPass_nil] at h
    exact ⟨rfl, h, by simp⟩
  | cons i l ih =>
    intro acc h
    rw [finishPass_cons] at h
    obtain ⟨heq, hstepf, hrest⟩ := ih (finishStep s acc i) h
    rcases finishStep_cases s acc i with ⟨hc, he⟩ | ⟨hc1, hc2, he⟩ | ⟨-, -, he⟩
    · rw [he] at heq hstepf hrest
      refine ⟨by rw [finishPass_cons, he]; exact heq, hstepf, ?_⟩
      intro x hx
      rcases List.mem_cons.mp hx with rfl | hxl
      · exact Or.inl hc
      · exact hrest x hxl
    · rw [he] at heq hstepf hrest
      refine ⟨by rw [finishPass_cons, he]; exact heq, hstepf, ?_⟩
      intro x hx
      rcases List.mem_cons.mp hx with rfl | hxl
      · exact Or.inr hc2
      · exact hrest x hxl
    · rw [he] at hstepf
      cases hstepf

/-! The loop reaches its fixed point within `count false + 1` passes, so
any two sufficient fuels give the same result. -/

theorem safeLoop_zero (s : BankersAlgorithm) (ord : List Nat) (wf : List Int × List Bool) :
    safeLoop s ord 0 wf = wf := rfl

theorem safeLoop_succ (s : BankersAlgorithm) (ord : List Nat) (fuel : Nat)
    (wf : List Int × List Bool) :
    safeLoop s ord (fuel + 1) wf =
      (let r := finishPass s (wf.1, wf.2, false) ord
       if r.2.2 then safeLoop s ord fuel (r.1, r.2.1) else wf) := rfl

theorem safeLoop_fuel_stable (s : BankersAlgorithm) (ord : List Nat) :
    ∀ fuel₁ fuel₂ w f, f.count false < fuel₁ → f.count false < fuel₂ →
      (∀ i ∈ ord, i < f.length) →
      safeLoop s ord fuel₁ (w, f) = safeLoop s ord fuel₂ (w, f) := by
  intro fuel₁
  induction fuel₁ with
  | zero =>
    intro fuel₂ w f h1
    omega
  | succ k ih =>
    intro fuel₂ w f h1 h2 hlen
    cases fuel₂ with
    | zero => omega
    | succ m =>
      rw [safeLoop_succ, safeLoop_succ]
      simp only []
      by_cases hp : (finishPass s (w, f, false) ord).2.2 = true
      · rw [if_pos hp, if_pos hp]
        have hlt : (finishPass s (w, f, false) ord).2.1.count false < f.count false :=
          finishPass_progress_count s ord (w, f, false) hlen rfl hp
        have hl : (finishPass s (w, f, false) ord).2.1.length = f.length :=
          finishPass_length s ord (w, f, false)
        exact ih m _ _ (by omega) (by omega) (by rw [hl]; exact hlen)
      · rw [if_neg hp, if_neg hp]

/-- C8: the safety check is total over every well-formed state: the outer
loop of `isSafe` is at its fixed point after at most `P + 1` passes, so
running it with any fuel of at least `P + 1` passes gives the result of
`isSafe` (whose loop is capped at `P + 1`).  `canRequest` is a total
function by construction. -/
theorem isSafeFuel_eq_isSafe (s : BankersAlgorithm) (fuel : Nat)
    (h : s.numProcesses + 1 ≤ fuel) :
    isSafeFuel s fuel = isSafe s := by
  unfold isSafeFuel isSafe isSafeOrder
  have hcount : (List.replicate s.numProcesses false).count false = s.numProcesses :=
    List.count_replicate_self _ _
  have hstable := safeLoop_fuel_stable s (List.range s.numProcesses) fuel
    (s.numProcesses + 1) s.available (List.replicate s.numProcesses false)
    (by omega) (by omega)
    (by intro i hi; simpa using List.mem_range.mp hi)
  rw [hstable]

/-- Witness for C8 on the scenario-A state with extra fuel. -/
theorem isSafeFuel_eq_isSafe_witness : isSafeFuel sA 10 = isSafe sA :=
  isSafeFuel_eq_isSafe sA 10 (by decide)

/-! Lemmas about executable sequences (`seqOk`), leading to the
characterisation of `isSafe` by the existence of a safe sequence. -/

theorem vecLe_iff (R : Nat) (xs ys : List Int) :
    vecLe R xs ys = true ↔ ∀ j < R, xs.getD j 0 ≤ ys.getD j 0 := by
  unfold vecLe
  simp [List.all_eq_true, List.mem_range]

theorem getD_vecAdd (R : Nat) (xs ys : List Int) {j : Nat} (h : j < R) :
    (vecAdd R xs ys).getD j 0 = xs.getD j 0 + ys.getD j 0 :=
  getD_map_range _ h 0

theorem vecAdd_right_comm (R : Nat) (w a b : List Int) :
    vecAdd R (vecAdd R w a) b = vecAdd R (vecAdd R w b) a := by
  apply List.map_eq_map_iff.mpr
  intro j hj
  have hj' := List.mem_range.mp hj
  rw [getD_vecAdd R w a hj', getD_vecAdd R w b hj']
  ring

theorem seqOk_nil (s : BankersAlgorithm) (w : List Int) : seqOk s w [] = true := rfl

theorem seqOk_cons (s : BankersAlgorithm) (w : List Int) (i : Nat) (l : List Nat) :
    seqOk s w (i :: l) = (canFinish s w i && seqOk s (releaseWork s w i) l) := rfl

theorem workAfter_nil (s : BankersAlgorithm) (w : List Int) : workAfter s w [] = w := rfl

theorem workAfter_cons (s : BankersAlgorithm) (w : List Int) (i : Nat) (l : List Nat) :
    workAfter s w (i :: l) = workAfter s (releaseWork s w i) l := rfl

theorem workAfter_append (s : BankersAlgorithm) (σ τ : List Nat) (w : List Int) :
    workAfter s w (σ ++ τ) = workAfter s (workAfter s w σ) τ := by
  unfold workAfter
  exact List.foldl_append _ _ _ _

theorem seqOk_append (s : BankersAlgorithm) (σ τ : List Nat) :
    ∀ w, seqOk s w (σ ++ τ) = (seqOk s w σ && seqOk s (workAfter s w σ) τ) := by
  induction σ with
  | nil =>
    intro w
    rw [List.nil_append, seqOk_nil, workAfter_nil, Bool.true_and]
  | cons i σ ih =>
    intro w
    rw [List.cons_append, seqOk_cons, seqOk_cons, ih, workAfter_cons, Bool.and_assoc]

theorem canFinish_mono (s : BankersAlgorithm) {w w' : List Int}
    (h : ∀ j < s.numResources, w.getD j 0 ≤ w'.getD j 0) (i : Nat)
    (hc : canFinish s w i = true) : canFinish s w' i = true := by
  unfold canFinish at hc ⊢
  rw [vecLe_iff] at hc ⊢
  intro j hj
  exact le_trans (hc j hj) (h j hj)

theorem releaseWork_mono (s : BankersAlgorithm) {w w' : List Int}
    (h : ∀ j < s.numResources, w.getD j 0 ≤ w'.getD j 0) (i : Nat) :
    ∀ j < s.numResources, (releaseWork s w i).getD j 0 ≤ (releaseWork s w' i).getD j 0 := by
  intro j hj
  unfold releaseWork
  rw [getD_vecAdd _ _ _ hj, getD_vecAdd _ _ _ hj]
  exact add_le_add_right (h j hj) _

theorem seqOk_mono (s : BankersAlgorithm) (σ : List Nat) :
    ∀ w w', (∀ j < s.numResources, w.getD j 0 ≤ w'.getD j 0) →
      seqOk s w σ = true → seqOk s w' σ = true := by
  induction σ with
  | nil =>
    intro w w' _ _
    exact seqOk_nil s w'
  | cons i σ ih =>
    intro w w' h hok
    rw [seqOk_cons, Bool.and_eq_true] at hok ⊢
    exact ⟨canFinish_mono s h i hok.1, ih _ _ (releaseWork_mono s h i) hok.2⟩

theorem getD_mem_or_default {α : Type} (l : List α) (i : Nat) (d : α) :
    l.getD i d ∈ l ∨ l.getD i d = d := by
  by_cases h : i < l.length
  · left
    rw [List.getD_eq_getElem?_getD, List.getElem?_eq_getElem h]
    exact List.getElem_mem h
  · right
    exact List.getD_eq_default _ _ (le_of_not_lt h)

theorem nonnegAlloc_getD (s : BankersAlgorithm) (h : NonnegAlloc s) (i j : Nat) :
    0 ≤ (s.allocation.getD i []).getD j 0 := by
  rcases getD_mem_or_default s.allocation i [] with hm | he
  · rcases getD_mem_or_default (s.allocation.getD i []) j 0 with hm2 | he2
    · exact h _ hm _ hm2
    · rw [he2]
  · rw [he]
    simp

theorem work_le_releaseWork (s : BankersAlgorithm) (h : NonnegAlloc s) (w : List Int) (i : Nat) :
    ∀ j < s.numResources, w.getD j 0 ≤ (releaseWork s w i).getD j 0 := by
  intro j hj
  unfold releaseWork
  rw [getD_vecAdd _ _ _ hj]
  have := nonnegAlloc_getD s h i j
  omega

theorem workAfter_vecAdd (s : BankersAlgorithm) (σ : List Nat) :
    ∀ w v, workAfter s (vecAdd s.numResources w v) σ
      = vecAdd s.numResources (workAfter s w σ) v := by
  induction σ with
  | nil =>
    intro w v
    rfl
  | cons i σ ih =>
    intro w v
    rw [workAfter_cons, workAfter_cons]
    have hstep : releaseWork s (vecAdd s.numResources w v) i
        = vecAdd s.numResources (releaseWork s w i) v := by
      unfold releaseWork
      exact vecAdd_right_comm s.numResources w v (s.allocation.getD i [])
    rw [hstep, ih]

/-- Exchange: an executable sequence can be reordered to start with any
currently eligible member, provided allocation entries are non-negative. -/
theorem seqOk_exchange (s : BankersAlgorithm) (hA : NonnegAlloc s)
    (σ : List Nat) (w : List Int) (i : Nat) (hnd : σ.Nodup) (hi : i ∈ σ)
    (hcf : canFinish s w i = true) (hok : seqOk s w σ = true) :
    seqOk s (releaseWork s w i) (σ.erase i) = true := by
  obtain ⟨α, β, rfl⟩ := List.mem_iff_append.mp hi
  have hiα : i ∉ α := by
    rw [List.nodup_append] at hnd
    intro hmem
    exact hnd.2.2 hmem (List.mem_cons_self _ _)
  have herase : (α ++ i :: β).erase i = α ++ β := by
    rw [List.erase_append_right _ hiα, List.erase_cons_head]
  rw [herase]
  rw [seqOk_append, Bool.and_eq_true] at hok
  obtain ⟨hokα, hoki⟩ := hok
  rw [seqOk_cons, Bool.and_eq_true] at hoki
  obtain ⟨hcfα, hokβ⟩ := hoki
  rw [seqOk_append, Bool.and_eq_true]
  constructor
  · exact seqOk_mono s α w (releaseWork s w i) (work_le_releaseWork s hA w i) hokα
  · have hcomm : workAfter s (releaseWork s w i) α = releaseWork s (workAfter s w α) i := by
      unfold releaseWork
      exact workAfter_vecAdd s α w (s.allocation.getD i [])
    rw [hcomm]
    exact hokβ

/-- Soundness invariant of one pass: the finished set is exactly the
membership of an executable sequence that produced the current work. -/
theorem finishPass_sound (s : BankersAlgorithm) (l : List Nat) :
    ∀ (acc : List Int × List Bool × Bool) (σ : List Nat),
      (∀ x ∈ l, x < s.numProcesses) →
      seqOk s s.available σ = true →
      acc.1 = workAfter s s.available σ →
      σ.Nodup →
      (∀ i, acc.2.1.getD i false = true ↔ i ∈ σ) →
      acc.2.1.length = s.numProcesses →
      (∀ i ∈ σ, i < s.numProcesses) →
      ∃ σ', seqOk s s.available σ' = true ∧
        (finishPass s acc l).1 = workAfter s s.available σ' ∧
        σ'.Nodup ∧
        (∀ i, (finishPass s acc l).2.1.getD i false = true ↔ i ∈ σ') ∧
        (finishPass s acc l).2.1.length = s.numProcesses ∧
        (∀ i ∈ σ', i < s.numProcesses) := by
  induction l with
  | nil =>
    intro acc σ _ h1 h2 h3 h4 h5 h6
    exact ⟨σ, h1, h2, h3, h4, h5, h6⟩
  | cons i l ih =>
    intro acc σ hl h1 h2 h3 h4 h5 h6
    have hltail : ∀ x ∈ l, x < s.numProcesses :=
      fun x hx => hl x (List.mem_cons_of_mem _ hx)
    have hiP : i < s.numProcesses := hl i (List.mem_cons_self _ _)
    rw [finishPass_cons]
    rcases finishStep_cases s acc i with ⟨-, he⟩ | ⟨-, -, he⟩ | ⟨hgd, hcf, he⟩
    · rw [he]
      exact ih acc σ hltail h1 h2 h3 h4 h5 h6
    · rw [he]
      exact ih acc σ hltail h1 h2 h3 h4 h5 h6
    · rw [he]
      have hinotσ : i ∉ σ := fun hmem => by
        have := (h4 i).mpr hmem
        rw [hgd] at this
        cases this
      apply ih (releaseWork s acc.1 i, acc.2.1.set i true, true) (σ ++ [i]) hltail
      · rw [seqOk_append, Bool.and_eq_true]
        refine ⟨h1, ?_⟩
        rw [seqOk_cons, Bool.and_eq_true]
        refine ⟨?_, seqOk_nil s _⟩
        rw [← h2]
        exact hcf
      · show releaseWork s acc.1 i = workAfter s s.available (σ ++ [i])
        rw [workAfter_append, workAfter_cons, workAfter_nil, h2]
      · simp only [List.nodup_append, List.nodup_cons, List.not_mem_nil, not_false_iff,
          List.nodup_nil, true_and, and_true]
        constructor
        · exact h3
        · intro x hx hx'
          rcases List.mem_singleton.mp hx' with rfl
          exact hinotσ hx
      · intro x
        by_cases hx : x = i
        · subst hx
          have hxlen : x < acc.2.1.length := by rw [h5]; exact hiP
          rw [getD_set_self _ _ _ hxlen]
          simp
        · rw [getD_set_ne _ _ _ (fun h => hx h.symm)]
          rw [h4 x]
          simp [List.mem_append, hx]
      · show (acc.2.1.set i true).length = s.numProcesses
        rw [List.length_set]
        exact h5
      · intro x hx
        rcases List.mem_append.mp hx with hx | hx
        · exact h6 x hx
        · rcases List.mem_singleton.mp hx with rfl
          exact hiP

/-- Soundness invariant carried through the outer loop. -/
theorem safeLoop_sound (s : BankersAlgorithm) (ord : List Nat)
    (hord : ∀ x ∈ ord, x < s.numProcesses) :
    ∀ fuel (wf : List Int × List Bool) (σ : List Nat),
      seqOk s s.available σ = true →
      wf.1 = workAfter s s.available σ →
      σ.Nodup →
      (∀ i, wf.2.getD i false = true ↔ i ∈ σ) →
      wf.2.length = s.numProcesses →
      (∀ i ∈ σ, i < s.numProcesses) →
      ∃ σ', seqOk s s.available σ' = true ∧ σ'.Nodup ∧
        (∀ i, (safeLoop s ord fuel wf).2.getD i false = true ↔ i ∈ σ') ∧
        (∀ i ∈ σ', i < s.numProcesses) := by
  intro fuel
  induction fuel with
  | zero =>
    intro wf σ h1 _ h3 h4 _ h6
    exact ⟨σ, h1, h3, h4, h6⟩
  | succ k ih =>
    intro wf σ h1 h2 h3 h4 h5 h6
    rw [safeLoop_succ]
    simp only []
    obtain ⟨σ', hs1, hs2, hs3, hs4, hs5, hs6⟩ :=
      finishPass_sound s ord (wf.1, wf.2, false) σ hord h1 h2 h3 h4 h5 h6
    by_cases hp : (finishPass s (wf.1, wf.2, false) ord).2.2 = true
    · rw [if_pos hp]
      exact ih ((finishPass s (wf.1, wf.2, false) ord).1,
        (finishPass s (wf.1, wf.2, false) ord).2.1) σ' hs1 hs2 hs3 hs4 hs5 hs6
    · rw [if_neg hp]
      exact ⟨σ, h1, h3, h4, h6⟩

/-- Soundness: when the safety scan finishes every process, the order of
virtual completion is a safe sequence of all processes. -/
theorem isSafeOrder_sound (s : BankersAlgorithm) (ord : List Nat)
    (hord : ∀ x ∈ ord, x < s.numProcesses)
    (h : isSafeOrder s ord = true) : SafeSeqExists s := by
  unfold isSafeOrder at h
  rw [List.all_eq_true] at h
  have hinit4 : ∀ i, (List.replicate s.numProcesses false).getD i false = true ↔
      i ∈ ([] : List Nat) := by
    intro i
    rw [getD_replicate]
    simp
  obtain ⟨σ', h1, h3, h4, h6⟩ := safeLoop_sound s ord hord (s.numProcesses + 1)
    (s.available, List.replicate s.numProcesses false) [] (seqOk_nil s _) rfl
    List.nodup_nil hinit4 (List.length_replicate _ _) (by intro i hi; cases hi)
  refine ⟨σ', ?_, h1⟩
  apply List.perm_of_nodup_nodup_toFinset_eq h3 (List.nodup_range _)
  ext x
  simp only [List.mem_toFinset, List.mem_range]
  constructor
  · intro hx
    exact h6 x hx
  · intro hx
    exact (h4 x).mp (h x (List.mem_range.mpr hx))

/-- Marking process `i` finished removes exactly `i` from the unfinished
part of a duplicate-free scan order. -/
theorem filter_set_erase (f : List Bool) (i : Nat) (hi : i < f.length)
    (hgd : f.getD i false = false) :
    ∀ ord : List Nat, ord.Nodup →
      ord.filter (fun x => !(f.set i true).getD x false)
        = (ord.filter fun x => !f.getD x false).erase i := by
  intro ord
  induction ord with
  | nil =>
    intro _
    rfl
  | cons x ord ih =>
    intro hnd
    have hxnot : x ∉ ord := (List.nodup_cons.mp hnd).1
    have hndt : ord.Nodup := (List.nodup_cons.mp hnd).2
    by_cases hx : x = i
    · subst hx
      have hset : (f.set x true).getD x false = true := getD_set_self _ _ _ hi
      rw [List.filter_cons_of_neg (by rw [hset]; simp)]
      rw [List.filter_cons_of_pos (by rw [hgd]; simp)]
      rw [List.erase_cons_head]
      apply List.filter_congr
      intro y hy
      have hyx : x ≠ y := fun h => hxnot (h ▸ hy)
      rw [getD_set_ne _ _ _ hyx]
    · have hset : (f.set i true).getD x false = f.getD x false :=
        getD_set_ne _ _ _ (fun h => hx h.symm)
      by_cases hpx : f.getD x false = false
      · rw [List.filter_cons_of_pos (by rw [hset, hpx]; simp)]
        rw [List.filter_cons_of_pos (by rw [hpx]; simp)]
        rw [List.erase_cons_tail (by simp [hx])]
        rw [ih hndt]
      · have hpx' : f.getD x false = true := by
          revert hpx
          cases f.getD x false <;> simp
        rw [List.filter_cons_of_neg (by rw [hset, hpx']; simp)]
        rw [List.filter_cons_of_neg (by rw [hpx']; simp)]
        exact ih hndt

/-- Completeness invariant of one pass: some executable sequence of the
still-unfinished processes survives each scan step. -/
theorem finishPass_complete (s : BankersAlgorithm) (hA : NonnegAlloc s)
    (ord : List Nat) (hnd : ord.Nodup) (l : List Nat) (hsub : ∀ x ∈ l, x ∈ ord) :
    ∀ (acc : List Int × List Bool × Bool) (σ : List Nat),
      (∀ x ∈ ord, x < acc.2.1.length) →
      σ.Perm (ord.filter fun x => !(acc.2.1.getD x false)) →
      seqOk s acc.1 σ = true →
      ∃ σ', σ'.Perm (ord.filter fun x => !((finishPass s acc l).2.1.getD x false)) ∧
        seqOk s (finishPass s acc l).1 σ' = true := by
  induction l with
  | nil =>
    intro acc σ _ hperm hok
    exact ⟨σ, hperm, hok⟩
  | cons i l ih =>
    intro acc σ hlen hperm hok
    have hsubt : ∀ x ∈ l, x ∈ ord := fun x hx => hsub x (List.mem_cons_of_mem _ hx)
    rw [finishPass_cons]
    rcases finishStep_cases s acc i with ⟨-, he⟩ | ⟨-, -, he⟩ | ⟨hgd, hcf, he⟩
    · rw [he]
      exact ih hsubt acc σ hlen hperm hok
    · rw [he]
      exact ih hsubt acc σ hlen hperm hok
    · rw [he]
      have hiord : i ∈ ord := hsub i (List.mem_cons_self _ _)
      have hifil : i ∈ ord.filter fun x => !(acc.2.1.getD x false) :=
        List.mem_filter.mpr ⟨hiord, by rw [hgd]; rfl⟩
      have hiσ : i ∈ σ := hperm.mem_iff.mpr hifil
      have hndσ : σ.Nodup := (List.Perm.nodup_iff hperm).mpr (List.Nodup.filter _ hnd)
      have hex : seqOk s (releaseWork s acc.1 i) (σ.erase i) = true :=
        seqOk_exchange s hA σ acc.1 i hndσ hiσ hcf hok
      have hfs : ord.filter (fun x => !(acc.2.1.set i true).getD x false)
          = (ord.filter fun x => !(acc.2.1.getD x false)).erase i :=
        filter_set_erase acc.2.1 i (hlen i hiord) hgd ord hnd
      apply ih hsubt (releaseWork s acc.1 i, acc.2.1.set i true, true) (σ.erase i)
      · intro x hx
        show x < (acc.2.1.set i true).length
        rw [List.length_set]
        exact hlen x hx
      · show (σ.erase i).Perm (ord.filter fun x => !((acc.2.1.set i true).getD x false))
        rw [hfs]
        exact List.Perm.erase i hperm
      · exact hex

/-- Completeness invariant carried through the outer loop: with enough
fuel, a state admitting an executable sequence of all unfinished
processes ends with every process in the scan order finished. -/
theorem safeLoop_complete (s : BankersAlgorithm) (hA : NonnegAlloc s)
    (ord : List Nat) (hnd : ord.Nodup) :
    ∀ fuel (wf : List Int × List Bool) (σ : List Nat),
      (∀ x ∈ ord, x < wf.2.length) →
      wf.2.count false < fuel →
      σ.Perm (ord.filter fun x => !(wf.2.getD x false)) →
      seqOk s wf.1 σ = true →
      ∀ i ∈ ord, (safeLoop s ord fuel wf).2.getD i false = true := by
  intro fuel
  induction fuel with
  | zero =>
    intro wf σ _ h
    omega
  | succ k ih =>
    intro wf σ hlen hcount hperm hok
    rw [safeLoop_succ]
    simp only []
    by_cases hp : (finishPass s (wf.1, wf.2, false) ord).2.2 = true
    · rw [if_pos hp]
      obtain ⟨σ', hperm', hok'⟩ := finishPass_complete s hA ord hnd ord
        (fun x hx => hx) (wf.1, wf.2, false) σ hlen hperm hok
      have hlen' : ∀ x ∈ ord, x < (finishPass s (wf.1, wf.2, false) ord).2.1.length := by
        intro x hx
        rw [finishPass_length]
        exact hlen x hx
      have hcnt : (finishPass s (wf.1, wf.2, false) ord).2.1.count false < wf.2.count false :=
        finishPass_progress_count s ord (wf.1, wf.2, false) hlen rfl hp
      have hcnt' : (finishPass s (wf.1, wf.2, false) ord).2.1.count false < k := by omega
      exact ih ((finishPass s (wf.1, wf.2, false) ord).1,
        (finishPass s (wf.1, wf.2, false) ord).2.1) σ' hlen' hcnt' hperm' hok'
    · rw [if_neg hp]
      obtain ⟨-, -, hcond⟩ := finishPass_noprogress s ord (wf.1, wf.2, false)
        (by revert hp; cases (finishPass s (wf.1, wf.2, false) ord).2.2 <;> simp)
      have hfilter : (ord.filter fun x => !(wf.2.getD x false)) = [] := by
        rcases hσ : σ with _ | ⟨hd, t⟩
        · rw [hσ] at hperm
          exact (List.Perm.nil_eq hperm).symm
        · exfalso
          rw [hσ] at hok hperm
          rw [seqOk_cons, Bool.and_eq_true] at hok
          have hhd : hd ∈ ord.filter fun x => !(wf.2.getD x false) :=
            hperm.mem_iff.mp (List.mem_cons_self _ _)
          have hhd' := List.mem_filter.mp hhd
          rcases hcond hd hhd'.1 with hfin | hcf
          · have : wf.2.getD hd false = false := by
              have h2 := hhd'.2
              revert h2
              cases wf.2.getD hd false <;> simp
            rw [this] at hfin
            cases hfin
          · rw [hok.1] at hcf
            cases hcf
      intro i hi
      by_contra hgd
      have hgd' : wf.2.getD i false = false := by
        revert hgd
        cases wf.2.getD i false <;> simp
      have : i ∈ ord.filter fun x => !(wf.2.getD x false) :=
        List.mem_filter.mpr ⟨hi, by rw [hgd']; rfl⟩
      rw [hfilter] at this
      cases this

/-- Completeness: a state with a safe sequence is reported safe by the
scan, whatever duplicate-free complete scan order is used. -/
theorem isSafeOrder_complete (s : BankersAlgorithm) (ord : List Nat)
    (hA : NonnegAlloc s) (hperm : ord.Perm (List.range s.numProcesses))
    (hsafe : SafeSeqExists s) : isSafeOrder s ord = true := by
  obtain ⟨τ, hτperm, hτok⟩ := hsafe
  have hnd : ord.Nodup := (List.Perm.nodup_iff hperm).mpr (List.nodup_range _)
  unfold isSafeOrder
  rw [List.all_eq_true]
  intro i hi
  have hinit : ord.filter (fun x => !((List.replicate s.numProcesses false).getD x false))
      = ord := by
    apply List.filter_eq_self.mpr
    intro x _
    rw [getD_replicate]
    rfl
  have hτord : τ.Perm (ord.filter fun x =>
      !((List.replicate s.numProcesses false).getD x false)) := by
    rw [hinit]
    exact hτperm.trans hperm.symm
  have hlen0 : ∀ x ∈ ord, x < (List.replicate s.numProcesses false).length := by
    intro x hx
    rw [List.length_replicate]
    exact List.mem_range.mp (hperm.mem_iff.mp hx)
  have hcnt : (List.replicate s.numProcesses false).count false < s.numProcesses + 1 := by
    rw [List.count_replicate_self]
    omega
  exact safeLoop_complete s hA ord hnd (s.numProcesses + 1)
    (s.available, List.replicate s.numProcesses false) τ hlen0 hcnt hτord hτok i
    (hperm.mem_iff.mpr hi)

/-- The scan with any complete scan order decides exactly the existence of
a safe sequence (non-negative allocation entries per the data model). -/
theorem isSafeOrder_iff (s : BankersAlgorithm) (ord : List Nat)
    (hA : NonnegAlloc s) (hperm : ord.Perm (List.range s.numProcesses)) :
    isSafeOrder s ord = true ↔ SafeSeqExists s :=
  ⟨isSafeOrder_sound s ord (fun x hx => List.mem_range.mp (hperm.mem_iff.mp hx)),
   isSafeOrder_complete s ord hA hperm⟩

/-- C1: for every state whose allocation matrix is non-negative (as the
spec's data model requires), `isSafe()` returns true exactly when some
ordering of all `P` processes lets each finish in turn: its need row
dominated by the accumulated work, starting from `available`, with each
finished process's allocation row added back. -/
theorem isSafe_iff_safeSeq (s : BankersAlgorithm) (hA : NonnegAlloc s) :
    isSafe s = true ↔ SafeSeqExists s :=
  isSafeOrder_iff s (List.range s.numProcesses) hA (List.Perm.refl _)

/-- Witness for C1: the scenario-A state is safe, so a safe sequence of
all five processes exists. -/
theorem isSafe_iff_safeSeq_witness : SafeSeqExists sA :=
  (isSafe_iff_safeSeq sA (by decide)).mp (by decide)

/-- C4: the boolean outcome of the safety scan is independent of the scan
order: any permutation of the ascending order gives the result of
`isSafe()` (for states with non-negative allocation, per the data model;
with negative allocation entries the outcome genuinely depends on the
order, see `isSafeOrder_order_dependent` below). -/
theorem isSafeOrder_eq_isSafe (s : BankersAlgorithm) (ord : List Nat)
    (hA : NonnegAlloc s) (hperm : ord.Perm (List.range s.numProcesses)) :
    isSafeOrder s ord = isSafe s := by
  have h1 := isSafeOrder_iff s ord hA hperm
  have h2 := isSafeOrder_iff s (List.range s.numProcesses) hA (List.Perm.refl _)
  rcases Bool.eq_false_or_eq_true (isSafeOrder s ord) with hb | hb <;>
    rcases Bool.eq_false_or_eq_true (isSafe s) with hs | hs
  · rw [hb, hs]
  · exfalso
    have ht : isSafeOrder s (List.range s.numProcesses) = true := h2.mpr (h1.mp hb)
    have hs' : isSafeOrder s (List.range s.numProcesses) = false := hs
    rw [hs'] at ht
    cases ht
  · exfalso
    have ht : isSafeOrder s ord = true := h1.mpr (h2.mp hs)
    rw [hb] at ht
    cases ht
  · rw [hb, hs]

/-- Witness for C4: a reversed scan order on the scenario-A state. -/
theorem isSafeOrder_eq_isSafe_witness :
    isSafeOrder sA [4, 3, 2, 1, 0] = isSafe sA :=
  isSafeOrder_eq_isSafe sA [4, 3, 2, 1, 0] (by decide) (by decide)

/-- Outside the data model (a negative allocation entry) the scan outcome
really does depend on the order, so the non-negativity hypothesis of the
two theorems above cannot be dropped. -/
theorem isSafeOrder_order_dependent :
    isSafe sNeg = false ∧ isSafeOrder sNeg [1, 0] = true := by decide

/-- Counterexample to C6: a second token `p` is not parsed like `P`; it is
rejected with `Expected 'P' token` and exit status 1, while the same input
with `P` parses successfully. -/
theorem lowercase_p_rejected :
    runMain ["R", "1", "p", "1", "Available", "5", "Max", "2", "Allocation", "1"]
        = MainOut.err ("Expected 'P' token") ∧
    runMain ["R", "1", "P", "1", "Available", "5", "Max", "2", "Allocation", "1"]
        ≠ runMain ["R", "1", "p", "1", "Available", "5", "Max", "2", "Allocation", "1"] := by
  constructor
  · rfl
  · decide

/-- C6 amended: the `R` position accepts the lowercase form `r` as well as
`R`, and any other first token is a fatal diagnostic; the `P` position
accepts only the exact token `P`, so any other second keyword, lowercase
`p` included, is a fatal diagnostic with exit status 1. -/
theorem keyword_case_spec :
    (∀ rest : List String, runMain (("r" : String) :: rest) = runMain (("R" : String) :: rest)) ∧
    (∀ (tok : String) (rest : List String), tok ≠ "R" → tok ≠ "r" →
      runMain (tok :: rest) = MainOut.err ("Expected 'R' at start")) ∧
    (∀ (tok : String) (rest : List String), tok ≠ "P" →
      runMain (("R" : String) :: ("1" : String) :: tok :: rest)
        = MainOut.err ("Expected 'P' token")) := by
  refine ⟨?_, ?_, ?_⟩
  · intro rest
    rfl
  · intro tok rest h1 h2
    unfold runMain readTok
    simp [h1, h2]
  · intro tok rest h
    have h1 : runMain (("R" : String) :: ("1" : String) :: tok :: rest)
        = parseAfterR { toks := ("1" : String) :: tok :: rest, failed := false } := rfl
    have h2 : readInt { toks := ("1" : String) :: tok :: rest, failed := false }
        = (1, { toks := tok :: rest, failed := false }) := rfl
    rw [h1]
    unfold parseAfterR
    rw [h2]
    unfold readTok
    simp [h]

/-- Witness for the amended C6 theorem at concrete tokens. -/
theorem keyword_case_spec_witness :
    runMain ["r"] = runMain ["R"] ∧
    runMain ["X"] = MainOut.err ("Expected 'R' at start") ∧
    runMain ["R", "1", "p"] = MainOut.err ("Expected 'P' token") :=
  ⟨keyword_case_spec.1 [], keyword_case_spec.2.1 ("X") [] (by decide) (by decide),
   keyword_case_spec.2.2 ("p") [] (by decide)⟩

/-- Counterexample to C7: on an empty input stream `main` returns 0 and
writes no diagnostic (`if (!(cin >> token)) return 0;`), where the claim
requires a non-zero exit with a message. -/
theorem empty_input_exit_zero :
    exitCode (runMain []) = 0 ∧ hasDiag (runMain []) = false := by decide

/-- C7 amended: end of stream before the very first token exits 0 with no
message; end of stream at any later point up to and including the
`Allocation` keyword is fatal with a diagnostic and exit status 1; end of
stream after the `Allocation` keyword has been consumed (among the
allocation numbers or later) exits 0, the unread numbers defaulting to
zero and the request line being treated as absent.  Stated over every
truncation of a representative well-formed 17-token input. -/
theorem truncated_input_spec :
    exitCode (runMain (c7toks.take 0)) = 0 ∧
    (∀ k < 12, exitCode (runMain (c7toks.take (k + 1))) = 1 ∧
      hasDiag (runMain (c7toks.take (k + 1))) = true) ∧
    (∀ k < 5, exitCode (runMain (c7toks.take (13 + k))) = 0) := by
  refine ⟨by decide, by decide, by decide⟩

/-- Witness for the amended C7 theorem at two truncation points. -/
theorem truncated_input_spec_witness :
    exitCode (runMain (c7toks.take 1)) = 1 ∧ exitCode (runMain (c7toks.take 13)) = 0 :=
  ⟨(truncated_input_spec.2.1 0 (by decide)).1, truncated_input_spec.2.2 0 (by decide)⟩

end Banker

